import Mathlib

/-!
Verification of the preprocessing code of the census-income XGBoost
notebook.  The notebook defines three scikit-learn style transformers
(PositionalSelector, StripString, SimpleOneHotEncoder), combines them with a
StandardScaler in a FeatureUnion pipeline, and computes boolean training
labels from the income-level column.  Matrices (numpy 2-d arrays) are
embedded as lists of row lists; out-of-range indexing, which raises in
numpy, is embedded with List.getD and a default, and the theorems carry the
in-range hypotheses under which the two agree.
-/

namespace Census

/-- Characters removed by the Python method str.strip: exactly those with
str.isspace() true, i.e. tab through carriage return (U+0009 to U+000D),
the information separators U+001C to U+001F, space, next line U+0085,
no-break space U+00A0, ogham space mark U+1680, the typographic spaces
U+2000 to U+200A, the line and paragraph separators U+2028 and U+2029,
narrow no-break space U+202F, medium mathematical space U+205F and
ideographic space U+3000. -/
def isPySpace (c : Char) : Bool :=
  (0x09 ≤ c.toNat && c.toNat ≤ 0x0d) || c.toNat = 0x20 ||
  (0x1c ≤ c.toNat && c.toNat ≤ 0x1f) || c.toNat = 0x85 || c.toNat = 0xa0 ||
  c.toNat = 0x1680 || (0x2000 ≤ c.toNat && c.toNat ≤ 0x200a) ||
  c.toNat = 0x2028 || c.toNat = 0x2029 || c.toNat = 0x202f ||
  c.toNat = 0x205f || c.toNat = 0x3000

/-- Python str.strip: removes leading and trailing whitespace. -/
def pyStrip (s : String) : String :=
  String.mk (((s.data.dropWhile isPySpace).reverse.dropWhile isPySpace).reverse)

/-- Number of columns of a matrix, X.shape[1] in numpy (numpy arrays are
rectangular, so the first row is authoritative). -/
def ncols {α : Type*} (X : List (List α)) : Nat :=
  (X.headD []).length

/-- Column c of matrix X, written X[:, c] in numpy. -/
def getCol {α : Type*} [Inhabited α] (X : List (List α)) (c : Nat) : List α :=
  X.map (fun row => row.getD c default)

/-- The PositionalSelector transformer: its fitted state is the constructor
argument positions, and fit does not change it. -/
structure PositionalSelector where
  positions : List Nat

/-- PositionalSelector.transform: np.array(X)[:, self.positions], the matrix
whose row i lists the entries of row i of X at the stored positions. -/
def PositionalSelector.transform {α : Type*} [Inhabited α]
    (sel : PositionalSelector) (X : List (List α)) : List (List α) :=
  X.map (fun row => sel.positions.map (fun p => row.getD p default))

namespace StripString

/-- StripString.transform: np.vectorize(str.strip) applied to np.array(X),
elementwise whitespace stripping. -/
def transform (X : List (List String)) : List (List String) :=
  X.map (fun row => row.map pyStrip)

end StripString

/-- Training labels: (raw_training_data['income-level'] == ' >50K').values,
the elementwise comparison of the label column with the literal string
' >50K' (leading space included, no trimming). -/
def trainLabels (col : List String) : List Bool :=
  col.map (fun v => v == " >50K")

/-- np.unique: the sorted list of the distinct values of l. -/
def npUnique {α : Type*} [DecidableEq α] [LinearOrder α] (l : List α) : List α :=
  l.dedup.insertionSort (· ≤ ·)

namespace SimpleOneHotEncoder

/-- SimpleOneHotEncoder.fit: self.values gets, for each column c of X, the
dictionary sending each v in enumerate(np.unique(X[:, c])) to its index.
Such a dictionary is embedded as the list np.unique(X[:, c]) itself: its
keys are the members of the list and the index assigned to a key v is
List.indexOf v. -/
def fit {α : Type*} [Inhabited α] [DecidableEq α] [LinearOrder α]
    (X : List (List α)) : List (List α) :=
  (List.range (ncols X)).map (fun c => npUnique (getCol X c))

/-- One row of the indicator matrix of one column: a zero row of width
len(self.values[c]) in which, when x is a key of the dictionary, the entry
at index self.values[c][x] is set to 1. -/
def oneHotRow {α : Type*} [DecidableEq α] (vals : List α) (x : α) : List Nat :=
  if x ∈ vals then (List.replicate vals.length 0).set (vals.indexOf x) 1
  else List.replicate vals.length 0

/-- The indicator matrix of one column: the loop for i, x in enumerate(Y)
filling np.zeros(shape=(len(Y), len(self.values[c]))). -/
def colMatrix {α : Type*} [DecidableEq α] (vals : List α) (col : List α) :
    List (List Nat) :=
  col.map (fun x => oneHotRow vals x)

/-- np.concatenate(matrices, axis=1) for matrices that all have n rows:
row i of the result chains the rows i of the blocks. -/
def concatCols (mats : List (List (List Nat))) (n : Nat) : List (List Nat) :=
  (List.range n).map (fun i => (mats.map (fun m => m.getD i [])).flatten)

/-- SimpleOneHotEncoder.transform: one indicator matrix per column of X,
concatenated along axis 1. -/
def transform {α : Type*} [Inhabited α] [DecidableEq α]
    (values : List (List α)) (X : List (List α)) : List (List Nat) :=
  concatCols ((List.range (ncols X)).map
    (fun c => colMatrix (values.getD c []) (getCol X c))) X.length

/-- Offset at which the block of column c starts in a transformed row. -/
def blockOffset {α : Type*} (values : List (List α)) (c : Nat) : Nat :=
  ((List.range c).map (fun j => (values.getD j []).length)).sum

end SimpleOneHotEncoder

/-- Slice of width w starting at offset off of a row. -/
def blockOf (row : List Nat) (off w : Nat) : List Nat :=
  (row.drop off).take w

theorem head_dropWhile_not {α : Type*} (p : α → Bool) (l : List α) (c : α)
    (h : (l.dropWhile p).head? = some c) : p c = false := by
  induction l with
  | nil => simp [List.dropWhile] at h
  | cons a t ih =>
    rw [List.dropWhile_cons] at h
    by_cases hpa : p a = true
    · exact ih (by simpa [hpa] using h)
    · have hac : a = c := by simpa [hpa] using h
      subst hac
      simpa using hpa

theorem mem_b_aux {α : Type*} (p : α → Bool) (l : List α) :
    l = (l.reverse.dropWhile p).reverse ++ (l.reverse.takeWhile p).reverse := by
  have h := List.takeWhile_append_dropWhile p l.reverse
  calc l = l.reverse.reverse := (List.reverse_reverse l).symm
    _ = (l.reverse.takeWhile p ++ l.reverse.dropWhile p).reverse := by rw [h]
    _ = (l.reverse.dropWhile p).reverse ++ (l.reverse.takeWhile p).reverse := by
        rw [List.reverse_append]

theorem pyStrip_spec (s : String) :
    ∃ a b : List Char,
      s.data = a ++ (pyStrip s).data ++ b ∧
      (∀ c ∈ a, isPySpace c = true) ∧
      (∀ c ∈ b, isPySpace c = true) ∧
      (∀ c, (pyStrip s).data.head? = some c → isPySpace c = false) ∧
      (∀ c, (pyStrip s).data.getLast? = some c → isPySpace c = false) := by
  set l1 : List Char := s.data.dropWhile isPySpace with hl1
  have hcore : (pyStrip s).data = (l1.reverse.dropWhile isPySpace).reverse := rfl
  refine ⟨s.data.takeWhile isPySpace, (l1.reverse.takeWhile isPySpace).reverse,
    ?_, ?_, ?_, ?_, ?_⟩
  · have h1 : s.data.takeWhile isPySpace ++ l1 = s.data :=
      List.takeWhile_append_dropWhile isPySpace s.data
    have h2 : l1 = (l1.reverse.dropWhile isPySpace).reverse ++
        (l1.reverse.takeWhile isPySpace).reverse := mem_b_aux isPySpace l1
    rw [hcore, List.append_assoc, ← h2, h1]
  · intro c hc
    exact List.mem_takeWhile_imp hc
  · intro c hc
    rw [List.mem_reverse] at hc
    exact List.mem_takeWhile_imp hc
  · intro c hc
    have h2 : l1 = (pyStrip s).data ++ (l1.reverse.takeWhile isPySpace).reverse := by
      rw [hcore]; exact mem_b_aux isPySpace l1
    have hl : l1.head? = some c := by
      rw [h2]
      cases hd : (pyStrip s).data with
      | nil => rw [hd] at hc; simp at hc
      | cons x t =>
          rw [hd] at hc
          simp at hc
          simp [hc]
    exact head_dropWhile_not isPySpace s.data c hl
  · intro c hc
    rw [hcore, List.getLast?_reverse] at hc
    exact head_dropWhile_not isPySpace l1.reverse c hc

theorem getD_map_lt {α β : Type*} (f : α → β) (l : List α) {i : Nat}
    (hi : i < l.length) (d : β) (d2 : α) :
    (l.map f).getD i d = f (l.getD i d2) := by
  rw [List.getD_eq_getElem (l.map f) d (by simpa using hi),
    List.getD_eq_getElem l d2 hi, List.getElem_map]

theorem getD_range_lt {n i : Nat} (hi : i < n) (d : Nat) :
    (List.range n).getD i d = i := by
  rw [List.getD_eq_getElem _ _ (by simpa using hi), List.getElem_range]

/-- C4: For every input matrix X and every position list ps,
PositionalSelector(ps).transform(X) returns the matrix whose column j equals
column ps[j] of X, for each j in order; the selected subset is fixed by ps
(each output row has length ps.length) and independent of the data. -/
theorem claim_C4_positionalSelector {α : Type*} [Inhabited α]
    (ps : List Nat) (X : List (List α)) :
    ((PositionalSelector.mk ps).transform X).length = X.length ∧
    (∀ row ∈ (PositionalSelector.mk ps).transform X, row.length = ps.length) ∧
    (∀ j, j < ps.length →
      getCol ((PositionalSelector.mk ps).transform X) j = getCol X (ps.getD j 0)) := by
  refine ⟨by simp [PositionalSelector.transform], ?_, ?_⟩
  · intro row hrow
    simp only [PositionalSelector.transform, List.mem_map] at hrow
    obtain ⟨r, hr, rfl⟩ := hrow
    simp
  · intro j hj
    unfold getCol PositionalSelector.transform
    rw [List.map_map]
    apply List.map_congr_left
    intro row hrow
    simp only [Function.comp_apply]
    exact getD_map_lt (fun p => row.getD p default) ps hj default 0

theorem claim_C4_witness :
    getCol ((PositionalSelector.mk [1, 3]).transform
        [[10, 11, 12, 13], [20, 21, 22, 23]]) 1 =
      getCol [[10, 11, 12, 13], [20, 21, 22, 23]] (([1, 3] : List Nat).getD 1 0) :=
  (claim_C4_positionalSelector [1, 3] [[10, 11, 12, 13], [20, 21, 22, 23]]).2.2 1
    (by decide)

/-- C5: StripString.transform returns a matrix of the same shape in which
entry (i, j) is the input entry (i, j) with leading and trailing whitespace
removed (the input entry splits as spaces ++ output entry ++ spaces, and the
output entry neither starts nor ends with whitespace); no entry is changed
in any other way. -/
theorem claim_C5_stripString (X : List (List String)) :
    (StripString.transform X).length = X.length ∧
    (∀ i, i < X.length →
      ((StripString.transform X).getD i []).length = (X.getD i []).length) ∧
    (∀ i j, i < X.length → j < (X.getD i []).length →
      ((StripString.transform X).getD i []).getD j "" =
        pyStrip ((X.getD i []).getD j "")) ∧
    (∀ i j, i < X.length → j < (X.getD i []).length →
      ∃ a b : List Char,
        ((X.getD i []).getD j "").data =
            a ++ (((StripString.transform X).getD i []).getD j "").data ++ b ∧
        (∀ c ∈ a, isPySpace c = true) ∧
        (∀ c ∈ b, isPySpace c = true) ∧
        (∀ c, (((StripString.transform X).getD i []).getD j "").data.head? = some c →
          isPySpace c = false) ∧
        (∀ c, (((StripString.transform X).getD i []).getD j "").data.getLast? = some c →
          isPySpace c = false)) := by
  have hentry : ∀ i j, i < X.length → j < (X.getD i []).length →
      ((StripString.transform X).getD i []).getD j "" =
        pyStrip ((X.getD i []).getD j "") := by
    intro i j hi hj
    unfold StripString.transform
    rw [getD_map_lt (fun row => row.map pyStrip) X hi [] []]
    exact getD_map_lt pyStrip (X.getD i []) hj "" ""
  refine ⟨by simp [StripString.transform], ?_, hentry, ?_⟩
  · intro i hi
    unfold StripString.transform
    rw [getD_map_lt (fun row => row.map pyStrip) X hi [] []]
    simp
  · intro i j hi hj
    rw [hentry i j hi hj]
    exact pyStrip_spec ((X.getD i []).getD j "")

theorem claim_C5_witness :
    ((StripString.transform [["  a b ", "c"]]).getD 0 []).getD 0 "" =
      pyStrip (([["  a b ", "c"]].getD 0 []).getD 0 "") :=
  (claim_C5_stripString [["  a b ", "c"]]).2.2.1 0 0 (by decide) (by decide)

/-- C10: entry i of the training labels is true exactly when entry i of the
income-level column is the exact string ' >50K' with its leading space; in
particular '>50K', ' >50K.' and ' <=50K' all give the label false, because
the label column is compared without any trimming. -/
theorem claim_C10_trainLabels :
    (∀ (col : List String) (i : Nat), i < col.length →
      ((trainLabels col).getD i false = true ↔ col.getD i "" = " >50K")) ∧
    trainLabels [" >50K", ">50K", " >50K.", " <=50K"] =
      [true, false, false, false] := by
  constructor
  · intro col i hi
    unfold trainLabels
    rw [getD_map_lt (fun v => v == " >50K") col hi false ""]
    exact beq_iff_eq
  · decide

theorem claim_C10_witness :
    (trainLabels [" >50K.", " >50K"]).getD 1 false = true ↔
      ([" >50K.", " >50K"].getD 1 "" = " >50K") :=
  claim_C10_trainLabels.1 [" >50K.", " >50K"] 1 (by decide)

theorem getCol_length {α : Type*} [Inhabited α] (X : List (List α)) (c : Nat) :
    (getCol X c).length = X.length := by
  simp [getCol]

theorem getCol_getD {α : Type*} [Inhabited α] (X : List (List α)) (c : Nat) {i : Nat}
    (hi : i < X.length) :
    (getCol X c).getD i default = (X.getD i []).getD c default := by
  unfold getCol
  exact getD_map_lt (fun row => row.getD c default) X hi default []

theorem getD_replicate_zero : ∀ (n j : Nat), (List.replicate n (0 : Nat)).getD j 0 = 0 := by
  intro n j
  by_cases h : j < n
  · rw [List.getD_eq_getElem _ _ (by simpa using h), List.getElem_replicate]
  · rw [List.getD_eq_default _ _ (by simpa using h)]

theorem mem_set_cases {β : Type*} :
    ∀ (l : List β) (p : Nat) (a y : β), y ∈ l.set p a → y = a ∨ y ∈ l := by
  intro l
  induction l with
  | nil => intro p a y hy; simp [List.set] at hy
  | cons h t ih =>
    intro p a y hy
    cases p with
    | zero =>
      rcases List.mem_cons.mp hy with rfl | hyt
      · exact Or.inl rfl
      · exact Or.inr (List.mem_cons.mpr (Or.inr hyt))
    | succ p =>
      rcases List.mem_cons.mp hy with rfl | hyt
      · exact Or.inr (List.mem_cons.mpr (Or.inl rfl))
      · rcases ih p a y hyt with h1 | h1
        · exact Or.inl h1
        · exact Or.inr (List.mem_cons.mpr (Or.inr h1))

namespace SimpleOneHotEncoder

theorem length_oneHotRow {α : Type*} [DecidableEq α] (vals : List α) (x : α) :
    (oneHotRow vals x).length = vals.length := by
  unfold oneHotRow
  split <;> simp

theorem oneHotRow_not_mem {α : Type*} [DecidableEq α] {vals : List α} {x : α}
    (hx : x ∉ vals) : oneHotRow vals x = List.replicate vals.length 0 := by
  unfold oneHotRow
  rw [if_neg hx]

theorem oneHotRow_getD_of_mem {α : Type*} [DecidableEq α] {vals : List α} {x : α}
    (hx : x ∈ vals) {j : Nat} (hj : j < vals.length) :
    (oneHotRow vals x).getD j 0 = if j = vals.indexOf x then 1 else 0 := by
  unfold oneHotRow
  rw [if_pos hx]
  have hlen : j < ((List.replicate vals.length (0 : Nat)).set (vals.indexOf x) 1).length := by
    simpa using hj
  rw [List.getD_eq_getElem _ _ hlen]
  by_cases h : j = vals.indexOf x
  · subst h
    rw [if_pos rfl]
    exact List.getElem_set_self hlen
  · rw [if_neg h, List.getElem_set_ne (fun hh => h hh.symm) hlen, List.getElem_replicate]

theorem oneHotRow_getD_of_not_mem {α : Type*} [DecidableEq α] {vals : List α} {x : α}
    (hx : x ∉ vals) (j : Nat) : (oneHotRow vals x).getD j 0 = 0 := by
  rw [oneHotRow_not_mem hx]
  exact getD_replicate_zero _ _

theorem mem_oneHotRow {α : Type*} [DecidableEq α] (vals : List α) (x : α) :
    ∀ y ∈ oneHotRow vals x, y = 0 ∨ y = 1 := by
  intro y hy
  unfold oneHotRow at hy
  split at hy
  · rcases mem_set_cases _ _ _ _ hy with h | h
    · exact Or.inr h
    · exact Or.inl (List.eq_of_mem_replicate h)
  · exact Or.inl (List.eq_of_mem_replicate hy)

theorem transform_length {α : Type*} [Inhabited α] [DecidableEq α]
    (values : List (List α)) (X : List (List α)) :
    (transform values X).length = X.length := by
  simp [transform, concatCols]

theorem transform_getD_row {α : Type*} [Inhabited α] [DecidableEq α]
    (values : List (List α)) (X : List (List α)) {i : Nat} (hi : i < X.length) :
    (transform values X).getD i [] =
      ((List.range (ncols X)).map
        (fun c => oneHotRow (values.getD c []) ((X.getD i []).getD c default))).flatten := by
  unfold transform concatCols
  set mats : List (List (List Nat)) :=
    (List.range (ncols X)).map (fun c => colMatrix (values.getD c []) (getCol X c)) with hmats
  rw [getD_map_lt (fun k => ((mats.map (fun m => m.getD k [])).flatten))
    (List.range X.length) (by simpa using hi) [] 0, getD_range_lt hi 0, hmats,
    List.map_map]
  congr 1
  apply List.map_congr_left
  intro c _
  simp only [Function.comp_apply]
  unfold colMatrix
  rw [getD_map_lt (fun x => oneHotRow (values.getD c []) x) (getCol X c)
    (by simpa [getCol_length] using hi) [] default]
  rw [getCol_getD X c hi]

end SimpleOneHotEncoder

theorem flatten_extract {β : Type*} :
    ∀ (L : List (List β)) (c : Nat), c < L.length →
      (L.flatten.drop (((L.take c).map List.length).sum)).take (L.getD c []).length
        = L.getD c [] := by
  intro L
  induction L with
  | nil => intro c hc; simp at hc
  | cons a t ih =>
    intro c hc
    cases c with
    | zero =>
      simp only [List.take_zero, List.map_nil, List.sum_nil, List.drop_zero,
        List.flatten_cons, List.getD_cons_zero]
      exact List.take_left a t.flatten
    | succ c =>
      simp only [List.take_succ_cons, List.map_cons, List.sum_cons, List.flatten_cons,
        List.getD_cons_succ]
      rw [← List.drop_drop, List.drop_left]
      exact ih c (by simpa using hc)

namespace SimpleOneHotEncoder

theorem transform_block {α : Type*} [Inhabited α] [DecidableEq α]
    (values : List (List α)) (X : List (List α)) {i c : Nat}
    (hi : i < X.length) (hc : c < ncols X) :
    blockOf ((transform values X).getD i []) (blockOffset values c)
        (values.getD c []).length
      = oneHotRow (values.getD c []) ((X.getD i []).getD c default) := by
  rw [transform_getD_row values X hi]
  set g : Nat → List Nat :=
    fun k => oneHotRow (values.getD k []) ((X.getD i []).getD k default) with hg
  set L : List (List Nat) := (List.range (ncols X)).map g with hL
  have hcL : c < L.length := by simpa [hL] using hc
  have hgetD : L.getD c [] = g c := by
    rw [hL, getD_map_lt g (List.range (ncols X)) (by simpa using hc) [] 0,
      getD_range_lt hc 0]
  have hoff : ((L.take c).map List.length).sum = blockOffset values c := by
    rw [hL, ← List.map_take, List.take_range, Nat.min_eq_left (le_of_lt hc),
      List.map_map]
    unfold blockOffset
    congr 1
    apply List.map_congr_left
    intro j _
    simp only [Function.comp_apply, hg]
    exact length_oneHotRow _ _
  have hw : (L.getD c []).length = (values.getD c []).length := by
    rw [hgetD, hg]
    exact length_oneHotRow _ _
  have h1 := flatten_extract L c hcL
  rw [hoff, hw] at h1
  unfold blockOf
  rw [h1, hgetD]

end SimpleOneHotEncoder

theorem range_length_sum {α : Type*} (values : List (List α)) :
    ((List.range values.length).map (fun j => (values.getD j []).length)).sum =
      (values.map List.length).sum := by
  congr 1
  apply List.ext_getElem (by simp)
  intro i h1 h2
  simp only [List.getElem_map, List.getElem_range]
  rw [List.getD_eq_getElem values [] (by simpa using h2)]

/-- C1: for a fitted SimpleOneHotEncoder and an input matrix X, each output
row's block for column c (the slice of width len(values[c]) starting where
the blocks of the previous columns end) is a binary vector with a single 1
at the index that the fitted dictionary values[c] assigns to the row's value
in column c, whenever that value was seen at fit time. -/
theorem claim_C1_oneHot_block {α : Type*} [Inhabited α] [DecidableEq α] [LinearOrder α]
    (X0 X : List (List α)) {i c : Nat} (hi : i < X.length) (hc : c < ncols X)
    (hx : (X.getD i []).getD c default ∈ (SimpleOneHotEncoder.fit X0).getD c []) :
    ∀ j, j < ((SimpleOneHotEncoder.fit X0).getD c []).length →
      (blockOf ((SimpleOneHotEncoder.transform (SimpleOneHotEncoder.fit X0) X).getD i [])
          (SimpleOneHotEncoder.blockOffset (SimpleOneHotEncoder.fit X0) c)
          ((SimpleOneHotEncoder.fit X0).getD c []).length).getD j 0 =
        if j = ((SimpleOneHotEncoder.fit X0).getD c []).indexOf
            ((X.getD i []).getD c default) then 1 else 0 := by
  intro j hj
  rw [SimpleOneHotEncoder.transform_block (SimpleOneHotEncoder.fit X0) X hi hc]
  exact SimpleOneHotEncoder.oneHotRow_getD_of_mem hx hj

theorem claim_C1_witness :
    (blockOf ((SimpleOneHotEncoder.transform
          (SimpleOneHotEncoder.fit ([[5, 7]] : List (List Nat))) [[5, 9]]).getD 0 [])
        (SimpleOneHotEncoder.blockOffset (SimpleOneHotEncoder.fit
          ([[5, 7]] : List (List Nat))) 0)
        ((SimpleOneHotEncoder.fit ([[5, 7]] : List (List Nat))).getD 0 []).length).getD 0 0 =
      if 0 = ((SimpleOneHotEncoder.fit ([[5, 7]] : List (List Nat))).getD 0 []).indexOf
          ((([[5, 9]] : List (List Nat)).getD 0 []).getD 0 default) then 1 else 0 :=
  claim_C1_oneHot_block [[5, 7]] [[5, 9]] (by decide) (by decide) (by decide) 0 (by decide)

/-- C3 counterexample: the encoder fitted on the one-row matrix [[1, 2]] and
applied to [[1, 3]] meets the claim's premise (the value 3 in column 1 was
not seen at fit time) but its output row [1, 0] is not all-zero: the block of
column 0 still carries a 1.  Only the block of the column holding the unseen
value is zero. -/
theorem claim_C3_counterexample :
    (([[1, 3]] : List (List Nat)).getD 0 []).getD 1 default ∉
        (SimpleOneHotEncoder.fit ([[1, 2]] : List (List Nat))).getD 1 [] ∧
    (SimpleOneHotEncoder.transform (SimpleOneHotEncoder.fit ([[1, 2]] : List (List Nat)))
        [[1, 3]]).getD 0 [] ≠
      List.replicate ((SimpleOneHotEncoder.transform (SimpleOneHotEncoder.fit
        ([[1, 2]] : List (List Nat))) [[1, 3]]).getD 0 []).length 0 := by
  decide

/-- C3 (amended): if the value of row i in column c was not seen at fit time,
transform raises no error (the embedding is total, mirroring the guarded
dictionary lookup) and the BLOCK of that output row belonging to column c is
all-zero; the whole row need not be zero, as other columns may still match. -/
theorem claim_C3_unseen_block {α : Type*} [Inhabited α] [DecidableEq α]
    (values : List (List α)) (X : List (List α)) {i c : Nat}
    (hi : i < X.length) (hc : c < ncols X)
    (hx : (X.getD i []).getD c default ∉ values.getD c []) :
    blockOf ((SimpleOneHotEncoder.transform values X).getD i [])
        (SimpleOneHotEncoder.blockOffset values c) (values.getD c []).length =
      List.replicate (values.getD c []).length 0 := by
  rw [SimpleOneHotEncoder.transform_block values X hi hc,
    SimpleOneHotEncoder.oneHotRow_not_mem hx]

theorem claim_C3_witness :
    blockOf ((SimpleOneHotEncoder.transform
          (SimpleOneHotEncoder.fit ([[1, 2]] : List (List Nat))) [[1, 3]]).getD 0 [])
        (SimpleOneHotEncoder.blockOffset
          (SimpleOneHotEncoder.fit ([[1, 2]] : List (List Nat))) 1)
        ((SimpleOneHotEncoder.fit ([[1, 2]] : List (List Nat))).getD 1 []).length =
      List.replicate ((SimpleOneHotEncoder.fit
          ([[1, 2]] : List (List Nat))).getD 1 []).length 0 :=
  claim_C3_unseen_block (SimpleOneHotEncoder.fit [[1, 2]]) [[1, 3]]
    (by decide) (by decide) (by decide)

/-- C8: for an input X with the fitted number of columns, transform gives
one output row per input row; every output row has sum over c of
len(values[c]) entries; every entry is 0 or 1; and within a row the block
belonging to one input column carries at most one 1. -/
theorem claim_C8_shape {α : Type*} [Inhabited α] [DecidableEq α]
    (values : List (List α)) (X : List (List α)) (hw : ncols X = values.length) :
    (SimpleOneHotEncoder.transform values X).length = X.length ∧
    (∀ i, i < X.length →
      ((SimpleOneHotEncoder.transform values X).getD i []).length =
        (values.map List.length).sum) ∧
    (∀ i, i < X.length →
      ∀ y ∈ (SimpleOneHotEncoder.transform values X).getD i [], y = 0 ∨ y = 1) ∧
    (∀ i c, i < X.length → c < ncols X →
      ∀ j k, j < (values.getD c []).length → k < (values.getD c []).length →
        (blockOf ((SimpleOneHotEncoder.transform values X).getD i [])
            (SimpleOneHotEncoder.blockOffset values c)
            (values.getD c []).length).getD j 0 = 1 →
        (blockOf ((SimpleOneHotEncoder.transform values X).getD i [])
            (SimpleOneHotEncoder.blockOffset values c)
            (values.getD c []).length).getD k 0 = 1 →
        j = k) := by
  refine ⟨SimpleOneHotEncoder.transform_length values X, ?_, ?_, ?_⟩
  · intro i hi
    rw [SimpleOneHotEncoder.transform_getD_row values X hi, List.length_flatten,
      List.map_map]
    have hmap : (List.range (ncols X)).map
        (List.length ∘ fun c =>
          SimpleOneHotEncoder.oneHotRow (values.getD c []) ((X.getD i []).getD c default)) =
        (List.range (ncols X)).map (fun c => (values.getD c []).length) := by
      apply List.map_congr_left
      intro c _
      simp only [Function.comp_apply]
      exact SimpleOneHotEncoder.length_oneHotRow _ _
    rw [hmap, hw]
    exact range_length_sum values
  · intro i hi y hy
    rw [SimpleOneHotEncoder.transform_getD_row values X hi] at hy
    rcases List.mem_flatten.mp hy with ⟨blk, hblk, hyblk⟩
    rcases List.mem_map.mp hblk with ⟨c, _, rfl⟩
    exact SimpleOneHotEncoder.mem_oneHotRow _ _ y hyblk
  · intro i c hi hc j k hj hk h1 h2
    rw [SimpleOneHotEncoder.transform_block values X hi hc] at h1 h2
    by_cases hx : (X.getD i []).getD c default ∈ values.getD c []
    · rw [SimpleOneHotEncoder.oneHotRow_getD_of_mem hx hj] at h1
      rw [SimpleOneHotEncoder.oneHotRow_getD_of_mem hx hk] at h2
      by_cases hj1 : j = (values.getD c []).indexOf ((X.getD i []).getD c default)
      · by_cases hk1 : k = (values.getD c []).indexOf ((X.getD i []).getD c default)
        · rw [hj1, hk1]
        · rw [if_neg hk1] at h2
          exact absurd h2 (by decide)
      · rw [if_neg hj1] at h1
        exact absurd h1 (by decide)
    · rw [SimpleOneHotEncoder.oneHotRow_getD_of_not_mem hx j] at h1
      exact absurd h1 (by decide)

theorem claim_C8_witness :
    ncols ([[1, 3]] : List (List Nat)) = ([[1], [2]] : List (List Nat)).length ∧
    ((SimpleOneHotEncoder.transform ([[1], [2]] : List (List Nat)) [[1, 3]]).getD 0 []).length =
      (([[1], [2]] : List (List Nat)).map List.length).sum :=
  ⟨by decide, (claim_C8_shape [[1], [2]] [[1, 3]] (by decide)).2.1 0 (by decide)⟩

/-- Explicit state passing for PositionalSelector.transform: the method body
assigns no attribute of self, so the embedded call returns the receiver
unchanged alongside its result. -/
def PositionalSelector.transformS {α : Type*} [Inhabited α] (sel : PositionalSelector)
    (X : List (List α)) : PositionalSelector × List (List α) :=
  (sel, sel.transform X)

/-- The SimpleOneHotEncoder object: its mutable state is the attribute
self.values set by fit. -/
structure OneHotEnc (α : Type*) where
  values : List (List α)

/-- Explicit state passing for SimpleOneHotEncoder.transform: the body reads
self.values and assigns nothing. -/
def OneHotEnc.transformS {α : Type*} [Inhabited α] [DecidableEq α] (e : OneHotEnc α)
    (X : List (List α)) : OneHotEnc α × List (List Nat) :=
  (e, SimpleOneHotEncoder.transform e.values X)

/-- Explicit state passing for SimpleOneHotEncoder.fit: the body starts from
self.values = [] and rebuilds every dictionary from X alone, so the new
state ignores the old one. -/
def OneHotEnc.fitS {α : Type*} [Inhabited α] [DecidableEq α] [LinearOrder α]
    (_e : OneHotEnc α) (X : List (List α)) : OneHotEnc α :=
  OneHotEnc.mk (SimpleOneHotEncoder.fit X)

/-- A sequence of transform calls on a PositionalSelector, threading the
state. -/
def PositionalSelector.runTransforms {α : Type*} [Inhabited α] (sel : PositionalSelector)
    (Xs : List (List (List α))) : PositionalSelector :=
  Xs.foldl (fun s X => (s.transformS X).1) sel

/-- A sequence of transform calls on a SimpleOneHotEncoder, threading the
state. -/
def OneHotEnc.runTransforms {α : Type*} [Inhabited α] [DecidableEq α] (e : OneHotEnc α)
    (Xs : List (List (List α))) : OneHotEnc α :=
  Xs.foldl (fun s X => (s.transformS X).1) e

/-- C7: transform never changes the fitted state: a single call, and hence
any sequence of calls on any inputs, leaves PositionalSelector.positions and
SimpleOneHotEncoder.values exactly as they were (StripString carries no
state at all). -/
theorem claim_C7_transform_stateless {α : Type*} [Inhabited α] [DecidableEq α] :
    (∀ (sel : PositionalSelector) (X : List (List α)),
      ((sel.transformS X).1).positions = sel.positions) ∧
    (∀ (e : OneHotEnc α) (X : List (List α)),
      ((e.transformS X).1).values = e.values) ∧
    (∀ (sel : PositionalSelector) (Xs : List (List (List α))),
      (sel.runTransforms Xs).positions = sel.positions) ∧
    (∀ (e : OneHotEnc α) (Xs : List (List (List α))),
      (e.runTransforms Xs).values = e.values) := by
  refine ⟨fun _ _ => rfl, fun _ _ => rfl, ?_, ?_⟩
  · intro sel Xs
    induction Xs generalizing sel with
    | nil => rfl
    | cons h t ih => exact ih ((sel.transformS h).1)
  · intro e Xs
    induction Xs generalizing e with
    | nil => rfl
    | cons h t ih => exact ih ((e.transformS h).1)

theorem npUnique_sorted {α : Type*} [DecidableEq α] [LinearOrder α] (l : List α) :
    (npUnique l).Sorted (· ≤ ·) :=
  List.sorted_insertionSort _ _

theorem npUnique_perm {α : Type*} [DecidableEq α] [LinearOrder α] (l : List α) :
    (npUnique l).Perm l.dedup :=
  List.perm_insertionSort _ _

theorem npUnique_nodup {α : Type*} [DecidableEq α] [LinearOrder α] (l : List α) :
    (npUnique l).Nodup :=
  ((npUnique_perm l).nodup_iff).mpr (List.nodup_dedup l)

theorem mem_npUnique {α : Type*} [DecidableEq α] [LinearOrder α] (l : List α) (v : α) :
    v ∈ npUnique l ↔ v ∈ l :=
  ((npUnique_perm l).mem_iff).trans (List.mem_dedup)

theorem npUnique_sorted_lt {α : Type*} [DecidableEq α] [LinearOrder α] (l : List α) :
    (npUnique l).Sorted (· < ·) :=
  (npUnique_sorted l).lt_of_le (npUnique_nodup l)

theorem indexOf_of_sorted_lt {α : Type*} [DecidableEq α] [LinearOrder α] :
    ∀ l : List α, l.Sorted (· < ·) → ∀ v ∈ l,
      l.indexOf v = (l.filter (fun w => decide (w < v))).length := by
  intro l
  induction l with
  | nil => intro _ v hv; simp at hv
  | cons a t ih =>
    intro hs v hv
    have hat : ∀ x ∈ t, a < x := List.rel_of_sorted_cons hs
    rcases List.mem_cons.mp hv with rfl | hvt
    · rw [List.indexOf_cons_self]
      have hfil : (v :: t).filter (fun w => decide (w < v)) = [] := by
        apply List.filter_eq_nil_iff.mpr
        intro x hx
        rcases List.mem_cons.mp hx with rfl | hxt
        · simp
        · simp [not_lt.mpr (le_of_lt (hat x hxt))]
      rw [hfil]
      rfl
    · have hav : a < v := hat v hvt
      rw [List.indexOf_cons_ne t (ne_of_lt hav), List.filter_cons_of_pos (by simpa using hav),
        List.length_cons, ih (List.sorted_cons.mp hs).2 v hvt]

/-- The entry of fit for a valid column index is np.unique of that column. -/
theorem fit_getD {α : Type*} [Inhabited α] [DecidableEq α] [LinearOrder α]
    (X : List (List α)) {c : Nat} (hc : c < ncols X) :
    (SimpleOneHotEncoder.fit X).getD c [] = npUnique (getCol X c) := by
  unfold SimpleOneHotEncoder.fit
  rw [getD_map_lt (fun c => npUnique (getCol X c)) (List.range (ncols X))
    (by simpa using hc) [] 0, getD_range_lt hc 0]

/-- C2: after fit, self.values has one dictionary per column of X; the keys
of dictionary c are exactly the distinct values of column c, and its
assigned indices are pairwise distinct and fill the range from 0 to the
number of distinct values of the column minus 1. -/
theorem claim_C2_fit_values {α : Type*} [Inhabited α] [DecidableEq α] [LinearOrder α]
    (X : List (List α)) :
    (SimpleOneHotEncoder.fit X).length = ncols X ∧
    (∀ c, c < ncols X →
      (∀ v, v ∈ (SimpleOneHotEncoder.fit X).getD c [] ↔ v ∈ getCol X c) ∧
      ((SimpleOneHotEncoder.fit X).getD c []).length =
        Finset.card (getCol X c).toFinset ∧
      (∀ v ∈ (SimpleOneHotEncoder.fit X).getD c [],
        ((SimpleOneHotEncoder.fit X).getD c []).indexOf v <
          ((SimpleOneHotEncoder.fit X).getD c []).length) ∧
      (∀ v w, v ∈ (SimpleOneHotEncoder.fit X).getD c [] →
        w ∈ (SimpleOneHotEncoder.fit X).getD c [] →
        ((SimpleOneHotEncoder.fit X).getD c []).indexOf v =
          ((SimpleOneHotEncoder.fit X).getD c []).indexOf w → v = w) ∧
      (∀ n, n < ((SimpleOneHotEncoder.fit X).getD c []).length →
        ∃ v ∈ (SimpleOneHotEncoder.fit X).getD c [],
          ((SimpleOneHotEncoder.fit X).getD c []).indexOf v = n)) := by
  constructor
  · unfold SimpleOneHotEncoder.fit
    simp
  · intro c hc
    rw [fit_getD X hc]
    refine ⟨mem_npUnique (getCol X c), ?_, ?_, ?_, ?_⟩
    · rw [(npUnique_perm (getCol X c)).length_eq]
      exact (List.card_toFinset (getCol X c)).symm
    · intro v hv
      exact List.indexOf_lt_length.mpr hv
    · intro v w hv hw heq
      have hv2 : (npUnique (getCol X c)).indexOf v < (npUnique (getCol X c)).length :=
        List.indexOf_lt_length.mpr hv
      have hw2 : (npUnique (getCol X c)).indexOf w < (npUnique (getCol X c)).length :=
        List.indexOf_lt_length.mpr hw
      have h1 : (npUnique (getCol X c)).get ⟨(npUnique (getCol X c)).indexOf v, hv2⟩ = v :=
        List.indexOf_get hv2
      have h2 : (npUnique (getCol X c)).get ⟨(npUnique (getCol X c)).indexOf w, hw2⟩ = w :=
        List.indexOf_get hw2
      rw [← h1, ← h2]
      simp only [heq]
    · intro n hn
      refine ⟨(npUnique (getCol X c)).get ⟨n, hn⟩, List.get_mem _ _ _, ?_⟩
      have := List.indexOf_getElem (npUnique_nodup (getCol X c)) n hn
      simpa using this

theorem claim_C2_witness :
    (SimpleOneHotEncoder.fit ([[1, 2], [3, 2]] : List (List Nat))).length =
      ncols ([[1, 2], [3, 2]] : List (List Nat)) ∧
    (∀ v, v ∈ (SimpleOneHotEncoder.fit ([[1, 2], [3, 2]] : List (List Nat))).getD 0 [] ↔
      v ∈ getCol ([[1, 2], [3, 2]] : List (List Nat)) 0) :=
  ⟨(claim_C2_fit_values [[1, 2], [3, 2]]).1,
    ((claim_C2_fit_values [[1, 2], [3, 2]]).2 0 (by decide)).1⟩

/-- C9: fit assigns category indices in the sorted order of the distinct
values: the index of value v of column c is the number of distinct values of
that column strictly smaller than v; and re-fitting on the same matrix gives
the same mappings whatever the previous state of the encoder. -/
theorem claim_C9_sorted_indices {α : Type*} [Inhabited α] [DecidableEq α] [LinearOrder α]
    (X : List (List α)) (c : Nat) (v : α) (hc : c < ncols X) (hv : v ∈ getCol X c) :
    ((SimpleOneHotEncoder.fit X).getD c []).indexOf v =
      Finset.card ((getCol X c).toFinset.filter (fun w => w < v)) ∧
    ∀ e e2 : OneHotEnc α, (e.fitS X).values = (e2.fitS X).values := by
  refine ⟨?_, fun e e2 => rfl⟩
  rw [fit_getD X hc]
  have hm : v ∈ npUnique (getCol X c) := (mem_npUnique (getCol X c) v).mpr hv
  rw [indexOf_of_sorted_lt (npUnique (getCol X c)) (npUnique_sorted_lt (getCol X c)) v hm]
  have hperm := (npUnique_perm (getCol X c)).filter (fun w => decide (w < v))
  rw [hperm.length_eq]
  have hnd : ((getCol X c).dedup.filter (fun w => decide (w < v))).Nodup :=
    (List.nodup_dedup (getCol X c)).filter _
  rw [← List.toFinset_card_of_nodup hnd]
  congr 1
  apply Finset.ext
  intro w
  simp [List.mem_toFinset, List.mem_filter, List.mem_dedup, Finset.mem_filter]

theorem claim_C9_witness :
    ((SimpleOneHotEncoder.fit ([[2], [1], [2]] : List (List Nat))).getD 0 []).indexOf 2 =
      Finset.card ((getCol ([[2], [1], [2]] : List (List Nat)) 0).toFinset.filter
        (fun w => w < 2)) :=
  (claim_C9_sorted_indices [[2], [1], [2]] 0 2 (by decide) (by decide)).1

/-- numerical_indices = [0, 12] from the notebook: age and hours-per-week. -/
def numerical_indices : List Nat := [0, 12]

/-- categorical_indices = [1, 3, 5, 7] from the notebook: workclass,
education, marital-status and relationship. -/
def categorical_indices : List Nat := [1, 3, 5, 7]

/-- A cell of the raw feature matrix (a numpy object array): census rows mix
strings and numbers.  Numbers are embedded as rationals. -/
inductive Cell where
  | str (s : String)
  | num (q : ℚ)
deriving DecidableEq

instance : Inhabited Cell := ⟨Cell.num 0⟩

/-- Whether a cell holds a string. -/
def Cell.isStr : Cell → Bool
  | Cell.str _ => true
  | Cell.num _ => false

/-- Whether a cell holds a number. -/
def Cell.isNum : Cell → Bool
  | Cell.str _ => false
  | Cell.num _ => true

/-- String content of a cell (dummy on numbers). -/
def Cell.strD : Cell → String
  | Cell.str s => s
  | Cell.num _ => ""

/-- Numeric content of a cell (dummy on strings). -/
def Cell.numD : Cell → ℚ
  | Cell.num q => q
  | Cell.str _ => 0

/-- str.strip on a cell: np.vectorize(str.strip) raises a TypeError on a
non-string entry, embedded as none. -/
def Cell.stripPy : Cell → Option String
  | Cell.str s => some (pyStrip s)
  | Cell.num _ => none

/-- Numeric reading of a cell: StandardScaler raises on non-numeric data,
embedded as none. -/
def Cell.toNum : Cell → Option ℚ
  | Cell.num q => some q
  | Cell.str _ => none

/-- Elementwise fallible map over a matrix of cells. -/
def matMapM {β : Type*} (f : Cell → Option β) (X : List (List Cell)) :
    Option (List (List β)) :=
  X.mapM (fun row => row.mapM f)

/-- StandardScaler.transform with fitted per-column means ms and scales ss:
entry j of a row becomes (x - ms[j]) / ss[j].  The scaler is sklearn
library code; its transform is modelled with its fitted statistics as
parameters. -/
def scalerTransform (ms ss : List ℚ) (X : List (List ℚ)) : List (List ℚ) :=
  X.map (fun row => (List.range row.length).map
    (fun j => (row.getD j 0 - ms.getD j 0) / ss.getD j 1))

/-- p1 = make_pipeline(PositionalSelector(categorical_indices),
StripString(), SimpleOneHotEncoder()): select the categorical columns,
strip them, one-hot encode them. -/
def p1Transform (values : List (List String)) (X : List (List Cell)) :
    Option (List (List Nat)) :=
  (matMapM Cell.stripPy ((PositionalSelector.mk categorical_indices).transform X)).map
    (fun S => SimpleOneHotEncoder.transform values S)

/-- p2 = make_pipeline(PositionalSelector(numerical_indices),
StandardScaler()): select the numerical columns and standardize them. -/
def p2Transform (ms ss : List ℚ) (X : List (List Cell)) :
    Option (List (List ℚ)) :=
  (matMapM Cell.toNum ((PositionalSelector.mk numerical_indices).transform X)).map
    (fun N => scalerTransform ms ss N)

/-- FeatureUnion([('numericals', p1), ('categoricals', p2)]).transform:
run both sub-pipelines and concatenate their outputs row-wise, p1 first;
the integer indicators join the float matrix by casting. -/
def pipelineTransform (values : List (List String)) (ms ss : List ℚ)
    (X : List (List Cell)) : Option (List (List ℚ)) :=
  match p1Transform values X, p2Transform ms ss X with
  | some A, some B =>
      some (List.zipWith (fun r1 r2 => r1.map (fun n => (n : ℚ)) ++ r2) A B)
  | _, _ => none

/-- The whitespace-stripped categorical columns (positions 1, 3, 5, 7) of a
cell matrix. -/
def catPart (X : List (List Cell)) : List (List String) :=
  StripString.transform
    (((PositionalSelector.mk categorical_indices).transform X).map
      (fun row => row.map Cell.strD))

/-- The numerical columns (positions 0 and 12) of a cell matrix. -/
def numPart (X : List (List Cell)) : List (List ℚ) :=
  ((PositionalSelector.mk numerical_indices).transform X).map
    (fun row => row.map Cell.numD)

theorem mapM_strip_row (row : List Cell) (h : ∀ x ∈ row, x.isStr = true) :
    row.mapM Cell.stripPy = some (row.map (fun x => pyStrip x.strD)) := by
  induction row with
  | nil => rfl
  | cons a t ih =>
    have ha : a.isStr = true := h a (List.mem_cons_self a t)
    cases a with
    | str s =>
      simp only [List.mapM_cons, Cell.stripPy, Cell.strD, List.map_cons,
        ih (fun x hx => h x (List.mem_cons_of_mem _ hx)), Option.bind_some,
        Option.pure_def]
      rfl
    | num q => simp [Cell.isStr] at ha

theorem mapM_num_row (row : List Cell) (h : ∀ x ∈ row, x.isNum = true) :
    row.mapM Cell.toNum = some (row.map Cell.numD) := by
  induction row with
  | nil => rfl
  | cons a t ih =>
    have ha : a.isNum = true := h a (List.mem_cons_self a t)
    cases a with
    | str s => simp [Cell.isNum] at ha
    | num q =>
      simp only [List.mapM_cons, Cell.toNum, Cell.numD, List.map_cons,
        ih (fun x hx => h x (List.mem_cons_of_mem _ hx)), Option.bind_some,
        Option.pure_def]
      rfl

theorem matMapM_strip (M : List (List Cell))
    (h : ∀ row ∈ M, ∀ x ∈ row, x.isStr = true) :
    matMapM Cell.stripPy M =
      some (M.map (fun row => row.map (fun x => pyStrip x.strD))) := by
  unfold matMapM
  induction M with
  | nil => rfl
  | cons r t ih =>
    simp only [List.mapM_cons, mapM_strip_row r (h r (List.mem_cons_self r t)),
      ih (fun row hrow x hx => h row (List.mem_cons_of_mem _ hrow) x hx),
      List.map_cons, Option.bind_some, Option.pure_def]
    rfl

theorem matMapM_num (M : List (List Cell))
    (h : ∀ row ∈ M, ∀ x ∈ row, x.isNum = true) :
    matMapM Cell.toNum M = some (M.map (fun row => row.map Cell.numD)) := by
  unfold matMapM
  induction M with
  | nil => rfl
  | cons r t ih =>
    simp only [List.mapM_cons, mapM_num_row r (h r (List.mem_cons_self r t)),
      ih (fun row hrow x hx => h row (List.mem_cons_of_mem _ hrow) x hx),
      List.map_cons, Option.bind_some, Option.pure_def]
    rfl

/-- C6: on well-typed input rows (strings at the categorical positions
1, 3, 5, 7; numbers at the numerical positions 0 and 12), the fitted
FeatureUnion pipeline raises no error and its feature matrix is the
column-wise concatenation of (1) the one-hot encoding of the
whitespace-stripped categorical columns and (2) the standardized numerical
columns, in that order.  This covers train_features at fit time and
processed_instances at prediction time, which both call the same
transform. -/
theorem claim_C6_pipeline (values : List (List String)) (ms ss : List ℚ)
    (X : List (List Cell))
    (hcat : ∀ row ∈ X, ∀ c ∈ categorical_indices, (row.getD c default).isStr = true)
    (hnum : ∀ row ∈ X, ∀ c ∈ numerical_indices, (row.getD c default).isNum = true) :
    pipelineTransform values ms ss X =
      some (List.zipWith (fun r1 r2 => r1.map (fun n => (n : ℚ)) ++ r2)
        (SimpleOneHotEncoder.transform values (catPart X))
        (scalerTransform ms ss (numPart X))) := by
  have hselcat : ∀ row ∈ (PositionalSelector.mk categorical_indices).transform X,
      ∀ x ∈ row, x.isStr = true := by
    intro row hrow x hx
    simp only [PositionalSelector.transform, List.mem_map] at hrow
    obtain ⟨r, hr, rfl⟩ := hrow
    simp only [List.mem_map] at hx
    obtain ⟨p, hp, rfl⟩ := hx
    exact hcat r hr p hp
  have hselnum : ∀ row ∈ (PositionalSelector.mk numerical_indices).transform X,
      ∀ x ∈ row, x.isNum = true := by
    intro row hrow x hx
    simp only [PositionalSelector.transform, List.mem_map] at hrow
    obtain ⟨r, hr, rfl⟩ := hrow
    simp only [List.mem_map] at hx
    obtain ⟨p, hp, rfl⟩ := hx
    exact hnum r hr p hp
  have hcatPart : ((PositionalSelector.mk categorical_indices).transform X).map
      (fun row => row.map (fun x => pyStrip x.strD)) = catPart X := by
    unfold catPart StripString.transform
    rw [List.map_map]
    apply List.map_congr_left
    intro row _
    simp only [Function.comp_apply]
    rw [List.map_map]
    rfl
  have h1 : p1Transform values X =
      some (SimpleOneHotEncoder.transform values (catPart X)) := by
    unfold p1Transform
    rw [matMapM_strip _ hselcat, hcatPart]
    rfl
  have h2 : p2Transform ms ss X = some (scalerTransform ms ss (numPart X)) := by
    unfold p2Transform
    rw [matMapM_num _ hselnum]
    rfl
  unfold pipelineTransform
  rw [h1, h2]

theorem claim_C6_witness :
    (∀ row ∈ ([[Cell.num 39, Cell.str " A", Cell.num 2, Cell.str " B", Cell.num 4,
        Cell.str " C", Cell.num 6, Cell.str " D", Cell.num 8, Cell.num 9,
        Cell.num 10, Cell.num 11, Cell.num 40]] : List (List Cell)),
      ∀ c ∈ categorical_indices, (row.getD c default).isStr = true) ∧
    pipelineTransform [["A"], ["B"], ["C"], ["D"]] [0, 0] [1, 1]
        [[Cell.num 39, Cell.str " A", Cell.num 2, Cell.str " B", Cell.num 4,
          Cell.str " C", Cell.num 6, Cell.str " D", Cell.num 8, Cell.num 9,
          Cell.num 10, Cell.num 11, Cell.num 40]] =
      some (List.zipWith (fun r1 r2 => r1.map (fun n => (n : ℚ)) ++ r2)
        (SimpleOneHotEncoder.transform [["A"], ["B"], ["C"], ["D"]]
          (catPart [[Cell.num 39, Cell.str " A", Cell.num 2, Cell.str " B", Cell.num 4,
            Cell.str " C", Cell.num 6, Cell.str " D", Cell.num 8, Cell.num 9,
            Cell.num 10, Cell.num 11, Cell.num 40]]))
        (scalerTransform [0, 0] [1, 1]
          (numPart [[Cell.num 39, Cell.str " A", Cell.num 2, Cell.str " B", Cell.num 4,
            Cell.str " C", Cell.num 6, Cell.str " D", Cell.num 8, Cell.num 9,
            Cell.num 10, Cell.num 11, Cell.num 40]]))) :=
  ⟨by decide,
    claim_C6_pipeline [["A"], ["B"], ["C"], ["D"]] [0, 0] [1, 1] _
      (by decide) (by decide)⟩

end Census
